import Mathlib

/- Shallow embedding of the self-contained analysis core of the program:
interval-tree reconstruction from lock/unlock event lists (`make_trace`),
Cartesian-product enumeration of per-task path alternatives (`get_all_sets`),
positional worst-case selection over evaluation results (`find_worst`), and
the running maximum of total utilization from the main loop.  Machine
integers (`usize`, `u32`, `u8`) are modelled as `Nat`; the values are only
moved and compared, never subjected to overflowing arithmetic.  Code whose
panic is observable (out-of-bounds indexing, `Option::unwrap`) is modelled
with `Option`, `none` standing for the panic. -/

namespace PoC

/-- Interval tree (the `Trace` type of the `srp` support crate, as used by the
program): identifier, start cycle, end cycle, and nested child intervals. -/
inductive Trace : Type where
  | mk (id : String) (start : Nat) (end_ : Nat) (inner : List Trace)
deriving Repr

/-- Identifier of the root of an interval tree. -/
def Trace.id : Trace → String
  | Trace.mk i _ _ _ => i

/-- Start cycle of an interval tree's root. -/
def Trace.start : Trace → Nat
  | Trace.mk _ s _ _ => s

/-- End cycle of an interval tree's root (field `end` in the source). -/
def Trace.end_ : Trace → Nat
  | Trace.mk _ _ e _ => e

/-- Child intervals of an interval tree's root. -/
def Trace.inner : Trace → List Trace
  | Trace.mk _ _ _ inner => inner

/-- Position of the first event in `laps` whose label equals `lbl`.  This is
the index `i - (start_i + 1)` at which the scanning loop of `make_trace`,
having opened an interval labelled `lbl` at index `start_i`, finds the
closing event (`current == &laps[i].1`). -/
def findCloseIdx (lbl : String) : List (Nat × String) → Option Nat
  | [] => none
  | (_, m) :: rest => if m = lbl then some 0 else (findCloseIdx lbl rest).map (· + 1)

/-- Scanning loop of `make_trace`: when no interval is open the next event
opens one (`current`, `inner_start`, `start_i`); a later event with the same
label closes it, and the events strictly between the two
(`laps[(start_i + 1)..i]`) are reconstructed recursively as the children of
the closed interval; events with other labels do not close it.  An open
interval that never finds a matching label leaves the loop with `in_inner`
still set, pushing nothing. -/
def scan : List (Nat × String) → List Trace
  | [] => []
  | (c, lbl) :: rest =>
    match findCloseIdx lbl rest with
    | none => []
    | some k =>
      match rest[k]? with
      | none => []
      | some (cc, _) => Trace.mk lbl c cc (scan (rest.take k)) :: scan (rest.drop (k + 1))
termination_by l => l.length
decreasing_by
  · simp [List.length_take]
  · simp [List.length_drop]
    omega

/-- Interval reconstruction `make_trace(start, end, laps, id)`: wraps the
intervals matched by the scanning loop in a root spanning `[start, end]`. -/
def make_trace (start end_ : Nat) (laps : List (Nat × String)) (id : String) : Trace :=
  Trace.mk id start end_ (scan laps)

/-- Depth-first flattening of a forest of interval trees into an event list:
for each tree, an open event `(start, id)` before the flattened children and
a close event `(end, id)` after them.  This is the spec's construction for
the nesting round-trip property. -/
def flattenF : List Trace → List (Nat × String)
  | [] => []
  | Trace.mk i s e inner :: rest => (s, i) :: (flattenF inner ++ ((e, i) :: flattenF rest))

/-- All identifiers occurring anywhere in a forest of interval trees. -/
def labelsOf : List Trace → List String
  | [] => []
  | Trace.mk i _ _ inner :: rest => i :: (labelsOf inner ++ labelsOf rest)

/-- Well-labelled forest: no node's identifier occurs among the identifiers
of its proper descendants.  Under this condition the close-on-repeated-label
heuristic of `make_trace` matches each open event with its own close event. -/
def okLabels : List Trace → Bool
  | [] => true
  | Trace.mk i _ _ inner :: rest =>
    !((labelsOf inner).contains i) && okLabels inner && okLabels rest

/-- Task record (the `srp` crate's `Task`, as built by `create_task`):
identifier, priority, deadline, minimum inter-arrival, reconstructed trace. -/
structure Task : Type where
  id : String
  prio : Nat
  deadline : Nat
  inter_arrival : Nat
  trace : Trace

/-- Cartesian-product enumeration `get_all_sets`: with a single task each
alternative forms its own singleton combination; otherwise, for every
alternative `t` of the first task, each combination of the remaining tasks is
extended by pushing `t` at its end.  Indexing `tasks[0]` on an empty outer
slice panics, modelled as `none`. -/
def get_all_sets : List (List Task) → Option (List (List Task))
  | [] => none
  | [t0] => some (t0.map (fun t => [t]))
  | t0 :: t1 :: rest =>
    match get_all_sets (t1 :: rest) with
    | none => none
    | some r => some (t0.flatMap (fun t => r.map (fun ta => ta ++ [t])))

/-- Specification-side enumeration, for comparison with `get_all_sets`: the
in-order Cartesian product described by the spec, in which the record chosen
from the first task comes first within each combination. -/
def selections : List (List Task) → List (List Task)
  | [] => [[]]
  | l :: rest => l.flatMap (fun t => (selections rest).map (fun s => t :: s))

/-- Per-task evaluation result (the `srp` crate's `TaskResult`, with exactly
the fields copied by `cheap_clone`): the task, an optional response time, the
worst-case execution time, blocking time and interference time. -/
structure TaskResult : Type where
  task : Task
  response_time : Option Nat
  wcet : Nat
  blocking : Nat
  interference : Nat

/-- Field-by-field copy `cheap_clone` of a task result. -/
def cheap_clone (input : TaskResult) : TaskResult :=
  { task := input.task
    response_time := input.response_time
    wcet := input.wcet
    blocking := input.blocking
    interference := input.interference }

/-- Rust's derived `Ord` on `Option<u32>`, as used by the comparison
`v.response_time < task.0[i].response_time` in `find_worst`: `None` is below
every `Some`, and `Some` values compare by their contents. -/
def optLt : Option Nat → Option Nat → Bool
  | none, none => false
  | none, some _ => true
  | some _, none => false
  | some a, some b => decide (a < b)

/-- Body of the inner match of `find_worst`: a candidate replaces the current
worst exactly when the current worst's response time is strictly below the
candidate's (first-seen wins ties); with no current worst the candidate is
taken. -/
def worstStep (cur : Option TaskResult) (tr : TaskResult) : Option TaskResult :=
  match cur with
  | none => some (cheap_clone tr)
  | some v =>
    if optLt v.response_time tr.response_time then some (cheap_clone tr) else some v

/-- Inner loop of `find_worst` for one slot `i`: fold `worstStep` over every
combination's result at position `i`.  Indexing `task.0[i]` out of bounds
panics, modelled as `none` of the outer `Option`. -/
def slotScan (i : Nat) : List (List TaskResult) → Option TaskResult → Option (Option TaskResult)
  | [], cur => some cur
  | comb :: rest, cur =>
    match comb[i]? with
    | none => none
    | some tr => slotScan i rest (worstStep cur tr)

/-- Result of one slot of `find_worst` including the final
`current_worst.unwrap()`: `none` if the scan panicked or the unwrap did. -/
def slotTotal (results : List (List TaskResult)) (i : Nat) : Option TaskResult :=
  match slotScan i results none with
  | none => none
  | some cur => cur

/-- Outer loop of `find_worst`: push the per-slot worst for every listed slot
index in order, propagating panics. -/
def collectSlots (results : List (List TaskResult)) : List Nat → Option (List TaskResult)
  | [] => some []
  | i :: is =>
    match slotTotal results i with
    | none => none
    | some w =>
      match collectSlots results is with
      | none => none
      | some ws => some (w :: ws)

/-- Worst-case selection `find_worst`: for each slot index
`i in 0..list_of_task_results[0].0.len()`, retain across all combinations the
result with the greatest response time at that slot.  Indexing
`list_of_task_results[0]` on an empty input panics, modelled as `none`. -/
def find_worst : List (List TaskResult) → Option (List TaskResult)
  | [] => none
  | r0 :: rest => collectSlots (r0 :: rest) (List.range r0.length)

/-- Modelled from the spec: the external evaluator's execution-time estimate
of a task — the span of the task's reconstructed trace, which `create_task`
builds over `[0, max_cycles]`.  The `srp` crate that computes it is not part
of this repository's sources. -/
def wcet_estimate (t : Task) : Nat :=
  t.trace.end_ - t.trace.start

/-- Modelled from the spec: the external evaluator's `total_utilization` of a
task set — the sum over its tasks of execution-time estimate divided by
inter-arrival.  The `srp` crate that computes it is not part of this
repository's sources; the `f32` arithmetic of the source is modelled over
`ℚ`, faithful for the comparisons the main loop performs. -/
def total_utilization (ts : List Task) : ℚ :=
  (ts.map (fun t => (wcet_estimate t : ℚ) / (t.inter_arrival : ℚ))).sum

/-- Main-loop accumulation of the maximum utilization: starting from `0.0`,
`max_utilization = max_utilization.max(tasks.total_utilization())` over the
enumerated combinations in order. -/
def max_utilization (combos : List (List Task)) : ℚ :=
  combos.foldl (fun m c => max m (total_utilization c)) 0

/-- Sample task used by concrete witnesses and counterexamples. -/
def taskA : Task :=
  { id := "A", prio := 1, deadline := 100, inter_arrival := 100
    trace := Trace.mk "A" 0 10 [] }

/-- Second sample task used by concrete witnesses and counterexamples. -/
def taskB : Task :=
  { id := "B", prio := 2, deadline := 200, inter_arrival := 200
    trace := Trace.mk "B" 0 20 [] }

/-- Alternative path record for the sample task `taskB` (same identifier,
different trace), used by concrete witnesses. -/
def taskB2 : Task :=
  { id := "B", prio := 2, deadline := 200, inter_arrival := 200
    trace := Trace.mk "B" 0 15 [] }

/-- Sample evaluation result with an unresolved (absent) response time. -/
def resNone : TaskResult :=
  { task := taskA, response_time := none, wcet := 1, blocking := 0, interference := 0 }

/-- Sample evaluation result with response time 5. -/
def resFive : TaskResult :=
  { task := taskA, response_time := some 5, wcet := 1, blocking := 0, interference := 0 }

/-- Sample evaluation result with response time 9. -/
def resNine : TaskResult :=
  { task := taskB, response_time := some 9, wcet := 2, blocking := 0, interference := 0 }

theorem mem_flattenF : ∀ (f : List Trace) (p : Nat × String), p ∈ flattenF f → p.2 ∈ labelsOf f := by
  intro f
  induction f using flattenF.induct with
  | case1 => intro p hp; simp [flattenF] at hp
  | case2 i s e inner rest ih1 ih2 =>
    intro p hp
    simp [flattenF] at hp
    rcases hp with h1 | h2 | h3 | h4
    · subst h1; simp [labelsOf]
    · have := ih1 p h2
      simp [labelsOf]
      tauto
    · simp [labelsOf]
      left; rw [h3]
    · have := ih2 p h4
      simp [labelsOf]
      tauto

theorem findCloseIdx_none (lbl : String) :
    ∀ l : List (Nat × String), (∀ p ∈ l, p.2 ≠ lbl) → findCloseIdx lbl l = none := by
  intro l
  induction l with
  | nil => intro _; rfl
  | cons hd tl ih =>
    intro h
    obtain ⟨c, m⟩ := hd
    have hm : m ≠ lbl := h (c, m) (by simp)
    simp [findCloseIdx, hm]
    exact ih (fun p hp => h p (by simp [hp]))

theorem findCloseIdx_append (lbl : String) (e : Nat) (ys : List (Nat × String)) :
    ∀ xs : List (Nat × String), (∀ p ∈ xs, p.2 ≠ lbl) →
      findCloseIdx lbl (xs ++ (e, lbl) :: ys) = some xs.length := by
  intro xs
  induction xs with
  | nil => intro _; simp [findCloseIdx]
  | cons hd tl ih =>
    intro h
    obtain ⟨c, m⟩ := hd
    have hm : m ≠ lbl := h (c, m) (by simp)
    simp [findCloseIdx, hm]
    exact ih (fun p hp => h p (by simp [hp]))

theorem scan_flattenF : ∀ f : List Trace, okLabels f = true → scan (flattenF f) = f := by
  intro f
  induction f using flattenF.induct with
  | case1 => intro _; simp [flattenF, scan]
  | case2 i s e inner rest ih1 ih2 =>
    intro hok
    simp [okLabels] at hok
    obtain ⟨⟨hmem, hin⟩, hrest⟩ := hok
    have hne : ∀ p ∈ flattenF inner, p.2 ≠ i := by
      intro p hp heq
      exact hmem (heq ▸ mem_flattenF inner p hp)
    have hfc : findCloseIdx i (flattenF inner ++ ((e, i) :: flattenF rest)) =
        some (flattenF inner).length := findCloseIdx_append i e (flattenF rest) (flattenF inner) hne
    have hget : (flattenF inner ++ ((e, i) :: flattenF rest))[(flattenF inner).length]? =
        some (e, i) := by
      rw [List.getElem?_append_right (le_refl _)]
      simp
    have htake : (flattenF inner ++ ((e, i) :: flattenF rest)).take (flattenF inner).length =
        flattenF inner := List.take_left _ _
    have hdrop : (flattenF inner ++ ((e, i) :: flattenF rest)).drop ((flattenF inner).length + 1) =
        flattenF rest := by
      rw [← List.drop_drop, List.drop_left]
      rfl
    simp only [flattenF]
    rw [scan]
    rw [hfc]
    simp only [hget, htake, hdrop, ih1 hin, ih2 hrest]

/-- C10: reconstruction over an empty event list yields a single leaf interval
with the given identifier and bounds and no children. -/
theorem make_trace_nil_events (s e : Nat) (id : String) :
    make_trace s e [] id = Trace.mk id s e [] := by
  simp [make_trace, scan]

/-- C1 (counterexample): on the spec's own example `[(10,"X"),(20,"Y")]`, in
which neither open label ever finds a matching later event, `make_trace` does
not fail: it returns a childless root interval, silently dropping both
unmatched events.  No `MalformedEventSequence` error exists in the code
(`make_trace` is total and returns a `Trace`, not a `Result`). -/
theorem make_trace_unmatched_counterexample :
    make_trace 0 30 [(10, "X"), (20, "Y")] "root" = Trace.mk "root" 0 30 [] := by
  simp [make_trace, scan, findCloseIdx]

/-- C1 (amended): when the first event's label never occurs among the later
events, `make_trace` silently returns the root interval with no children —
the unmatched open interval and every event after it are dropped, and no
error of any kind is raised. -/
theorem make_trace_unmatched_silently_dropped (s e c : Nat) (lbl : String)
    (rest : List (Nat × String)) (id : String) (h : ∀ p ∈ rest, p.2 ≠ lbl) :
    make_trace s e ((c, lbl) :: rest) id = Trace.mk id s e [] := by
  have hn := findCloseIdx_none lbl rest h
  rw [make_trace, scan, hn]

theorem make_trace_unmatched_silently_dropped_witness :
    (∀ p ∈ [(2, "B"), (3, "C")], Prod.snd p ≠ "A") ∧
    make_trace 0 9 [(1, "A"), (2, "B"), (3, "C")] "root" = Trace.mk "root" 0 9 [] := by
  refine ⟨?_, make_trace_unmatched_silently_dropped 0 9 1 "A" [(2, "B"), (3, "C")] "root" ?_⟩ <;>
    decide

/-- C2 (amended): for every interval tree in which no node's identifier occurs
among the identifiers of its proper descendants, flattening the tree's
children depth-first (open event before children, close event after) and
running `make_trace` over the flattened events with the root's bounds and
identifier recovers the tree exactly — same identifiers, same start/end
bounds, same child order at every node. -/
theorem make_trace_roundtrip (t : Trace) (h : okLabels t.inner = true) :
    make_trace t.start t.end_ (flattenF t.inner) t.id = t := by
  obtain ⟨i, s, e, inner⟩ := t
  simp only [Trace.id, Trace.start, Trace.end_, Trace.inner] at *
  simp [make_trace, scan_flattenF inner h]

theorem make_trace_roundtrip_witness :
    okLabels (Trace.inner (Trace.mk "R" 0 10
      [Trace.mk "A" 1 4 [Trace.mk "B" 2 3 []], Trace.mk "C" 5 6 []])) = true ∧
    make_trace 0 10 (flattenF [Trace.mk "A" 1 4 [Trace.mk "B" 2 3 []], Trace.mk "C" 5 6 []]) "R" =
      Trace.mk "R" 0 10 [Trace.mk "A" 1 4 [Trace.mk "B" 2 3 []], Trace.mk "C" 5 6 []] := by
  have hok : okLabels (Trace.inner (Trace.mk "R" 0 10
      [Trace.mk "A" 1 4 [Trace.mk "B" 2 3 []], Trace.mk "C" 5 6 []])) = true := by
    simp [Trace.inner, okLabels, labelsOf]
  refine ⟨hok, ?_⟩
  have := make_trace_roundtrip (Trace.mk "R" 0 10
    [Trace.mk "A" 1 4 [Trace.mk "B" 2 3 []], Trace.mk "C" 5 6 []]) hok
  simpa [Trace.id, Trace.start, Trace.end_, Trace.inner] using this

/-- C2 (counterexample): the round trip fails without the label condition.
For the tree `A[1,4]` containing `A[2,3]` — a child sharing its parent's
label — reconstruction of the flattened events pairs the parent's open event
with the child's open event and yields two flat sibling intervals `A[1,2]`
and `A[3,4]`, not a tree isomorphic to the original. -/
theorem make_trace_roundtrip_counterexample :
    make_trace 0 5 (flattenF [Trace.mk "A" 1 4 [Trace.mk "A" 2 3 []]]) "R" =
      Trace.mk "R" 0 5 [Trace.mk "A" 1 2 [], Trace.mk "A" 3 4 []] ∧
    Trace.mk "R" 0 5 [Trace.mk "A" 1 2 [], Trace.mk "A" 3 4 []] ≠
      Trace.mk "R" 0 5 [Trace.mk "A" 1 4 [Trace.mk "A" 2 3 []]] := by
  constructor
  · simp [make_trace, flattenF, scan, findCloseIdx]
  · intro h
    simp at h

theorem flatMap_singleton_map {α β : Type} (l : List α) (f : α → β) :
    l.flatMap (fun t => [f t]) = l.map f := by
  induction l with
  | nil => rfl
  | cons hd tl ih => simp [ih]

theorem gas_selections :
    ∀ ts : List (List Task), ts ≠ [] →
      get_all_sets ts = some ((selections ts).map List.reverse) := by
  intro ts
  induction ts with
  | nil => intro h; exact absurd rfl h
  | cons t0 rest ih =>
    intro _
    cases rest with
    | nil =>
      simp only [get_all_sets, selections, List.map_cons, List.map_nil]
      rw [flatMap_singleton_map t0 (fun t => [t])]
      simp
    | cons t1 rest' =>
      have hr := ih (by simp)
      simp only [get_all_sets, hr]
      simp only [selections, List.map_flatMap, List.map_map]
      congr 1
      congr 1
      funext t
      congr 1
      funext s
      simp

theorem mem_selections :
    ∀ (ts : List (List Task)) (s : List Task),
      s ∈ selections ts ↔ List.Forall₂ (fun t l => t ∈ l) s ts := by
  intro ts
  induction ts with
  | nil =>
    intro s
    simp [selections, List.forall₂_nil_right_iff]
  | cons l rest ih =>
    intro s
    simp only [selections, List.mem_flatMap, List.mem_map, List.forall₂_cons_right_iff]
    constructor
    · rintro ⟨t, ht, s', hs', rfl⟩
      exact ⟨t, s', ht, (ih s').1 hs', rfl⟩
    · rintro ⟨t, s', ht, hs', rfl⟩
      exact ⟨t, ht, s', (ih s').2 hs', rfl⟩

theorem length_selections :
    ∀ ts : List (List Task), (selections ts).length = (ts.map List.length).prod := by
  intro ts
  induction ts with
  | nil => rfl
  | cons l rest ih =>
    simp only [selections, List.length_flatMap, List.map_cons, List.prod_cons, ← ih]
    have : (List.map (List.length ∘ fun t => (selections rest).map (fun s => t :: s)) l) =
        List.map (Function.const Task (selections rest).length) l := by
      funext
      congr 1
      funext t
      simp [Function.comp, Function.const]
    rw [this, List.map_const, List.sum_replicate, smul_eq_mul]

theorem forall2_task_comp {s : List Task} {ts : List (List Task)} {ids : List String} :
    List.Forall₂ (fun t l => t ∈ l) s ts →
    List.Forall₂ (fun l nm => ∀ t ∈ l, Task.id t = nm) ts ids →
    List.Forall₂ (fun t nm => Task.id t = nm) s ids := by
  intro h1
  induction h1 generalizing ids with
  | nil =>
    intro h2
    cases h2
    exact List.Forall₂.nil
  | cons hmem _ ih =>
    intro h2
    cases h2 with
    | cons hid htl => exact List.Forall₂.cons (hid _ hmem) (ih htl)

theorem forall2_id_map {s : List Task} {ids : List String}
    (h : List.Forall₂ (fun t nm => Task.id t = nm) s ids) : s.map Task.id = ids := by
  induction h with
  | nil => rfl
  | cons hid _ ih => simp [hid, ih]

theorem selections_empty_of_mem :
    ∀ ts : List (List Task), [] ∈ ts → selections ts = [] := by
  intro ts
  induction ts with
  | nil => intro h; simp at h
  | cons l rest ih =>
    intro h
    rcases List.mem_cons.1 h with h1 | h2
    · subst h1
      rfl
    · rw [selections, ih h2]
      simp only [List.map_nil]
      induction l with
      | nil => rfl
      | cons hd tl ihl => simpa using ihl

/-- C3: over a non-empty outer list of per-task alternatives whose entries
all carry their task's identifier, with the task identifiers pairwise
distinct, `get_all_sets` succeeds and returns exactly the product of the
alternative counts, each combination having one entry per input task and
containing exactly one record per task identifier. -/
theorem get_all_sets_product (ts : List (List Task)) (ids : List String)
    (hne : ts ≠ []) (hid : List.Forall₂ (fun l nm => ∀ t ∈ l, Task.id t = nm) ts ids)
    (hnd : ids.Nodup) :
    ∃ combos, get_all_sets ts = some combos ∧
      combos.length = (ts.map List.length).prod ∧
      ∀ c ∈ combos, c.length = ts.length ∧
        ∀ nm ∈ ids, (c.map Task.id).count nm = 1 := by
  refine ⟨(selections ts).map List.reverse, gas_selections ts hne, ?_, ?_⟩
  · simp [length_selections]
  · intro c hc
    rw [List.mem_map] at hc
    obtain ⟨s, hs, rfl⟩ := hc
    have hf2 : List.Forall₂ (fun t l => t ∈ l) s ts := (mem_selections ts s).1 hs
    have hmap : s.map Task.id = ids := forall2_id_map (forall2_task_comp hf2 hid)
    refine ⟨by simp [hf2.length_eq], ?_⟩
    intro nm hnm
    rw [List.map_reverse, List.count_reverse, hmap]
    exact List.count_eq_one_of_mem hnd hnm

theorem get_all_sets_product_witness :
    ∃ combos, get_all_sets [[taskA], [taskB, taskB2]] = some combos ∧
      combos.length = ([[taskA], [taskB, taskB2]].map List.length).prod ∧
      ∀ c ∈ combos, c.length = [[taskA], [taskB, taskB2]].length ∧
        ∀ nm ∈ ["A", "B"], (c.map Task.id).count nm = 1 :=
  get_all_sets_product [[taskA], [taskB, taskB2]] ["A", "B"] (by simp)
    (List.Forall₂.cons (by simp [taskA])
      (List.Forall₂.cons (by simp [taskB, taskB2]) List.Forall₂.nil))
    (by simp)

/-- C9: each combination returned by `get_all_sets` is the reverse of an
in-order selection of one record per input task — the record chosen from the
first input task appears last, because each recursion level pushes its task's
record after the recursive result — and under distinct per-task identifiers
each combination still contains exactly one record per task identifier. -/
theorem get_all_sets_reverse_order (ts : List (List Task)) (ids : List String)
    (hne : ts ≠ []) (hid : List.Forall₂ (fun l nm => ∀ t ∈ l, Task.id t = nm) ts ids)
    (hnd : ids.Nodup) :
    get_all_sets ts = some ((selections ts).map List.reverse) ∧
    ∀ s ∈ selections ts, List.Forall₂ (fun t l => t ∈ l) s ts ∧
      ∀ nm ∈ ids, (s.reverse.map Task.id).count nm = 1 := by
  refine ⟨gas_selections ts hne, ?_⟩
  intro s hs
  have hf2 : List.Forall₂ (fun t l => t ∈ l) s ts := (mem_selections ts s).1 hs
  have hmap : s.map Task.id = ids := forall2_id_map (forall2_task_comp hf2 hid)
  refine ⟨hf2, ?_⟩
  intro nm hnm
  rw [List.map_reverse, List.count_reverse, hmap]
  exact List.count_eq_one_of_mem hnd hnm

theorem get_all_sets_reverse_order_witness :
    get_all_sets [[taskB], [taskA]] = some ((selections [[taskB], [taskA]]).map List.reverse) ∧
    ∀ s ∈ selections [[taskB], [taskA]],
      List.Forall₂ (fun t l => t ∈ l) s [[taskB], [taskA]] ∧
      ∀ nm ∈ ["B", "A"], (s.reverse.map Task.id).count nm = 1 :=
  get_all_sets_reverse_order [[taskB], [taskA]] ["B", "A"] (by simp)
    (List.Forall₂.cons (by simp [taskB])
      (List.Forall₂.cons (by simp [taskA]) List.Forall₂.nil))
    (by simp)

/-- C7 (amended): enumeration reports no `EmptyCombinationSpace` error: on an
empty outer list `get_all_sets` panics via `tasks[0]` out-of-bounds indexing
(modelled `none`), and when any task contributes zero alternatives it
silently returns the empty list of combinations. -/
theorem get_all_sets_empty_silent :
    get_all_sets ([] : List (List Task)) = none ∧
    ∀ ts : List (List Task), [] ∈ ts → get_all_sets ts = some [] := by
  refine ⟨rfl, ?_⟩
  intro ts hmem
  have hne : ts ≠ [] := by
    rintro rfl
    simp at hmem
  rw [gas_selections ts hne, selections_empty_of_mem ts hmem]
  rfl

theorem get_all_sets_empty_silent_witness :
    get_all_sets [([] : List Task), [taskA]] = some [] :=
  get_all_sets_empty_silent.2 [[], [taskA]] (by simp)

/-- C7 (counterexample): a task with zero path alternatives produces
`some []` — an empty enumeration returned silently with no explicit error
(and an empty outer list produces an index-out-of-bounds panic, also not a
reported `EmptyCombinationSpace`). -/
theorem get_all_sets_empty_counterexample :
    get_all_sets [([] : List Task)] = some [] := rfl

theorem cheap_clone_eq (r : TaskResult) : cheap_clone r = r := rfl

theorem optLt_irrefl (a : Option Nat) : optLt a a = false := by
  cases a <;> simp [optLt]

theorem optLt_asymm {a b : Option Nat} (h : optLt a b = true) : optLt b a = false := by
  cases a <;> cases b <;> simp_all [optLt] <;> omega

theorem optLt_trans {a b c : Option Nat} (h1 : optLt a b = true) (h2 : optLt b c = true) :
    optLt a c = true := by
  cases a <;> cases b <;> cases c <;> simp_all [optLt] <;> omega

theorem optLt_of_nlt_of_lt {a b c : Option Nat} (h1 : optLt b a = false)
    (h2 : optLt b c = true) : optLt a c = true := by
  cases a <;> cases b <;> cases c <;> simp_all [optLt] <;> omega

theorem slotScan_spec (i : Nat) :
    ∀ (l : List (List TaskResult)) (v : TaskResult),
      (∀ comb ∈ l, i < comb.length) →
      ∃ w, slotScan i l (some v) = some (some w) ∧
        ((w = v ∧ ∀ comb ∈ l, ∀ tr, comb[i]? = some tr →
            optLt v.response_time tr.response_time = false) ∨
         (∃ p comb q tr, l = p ++ comb :: q ∧ comb[i]? = some tr ∧ w = tr ∧
            optLt v.response_time tr.response_time = true ∧
            (∀ cb ∈ p, ∀ tr2, cb[i]? = some tr2 →
              optLt tr2.response_time tr.response_time = true) ∧
            (∀ cb ∈ q, ∀ tr2, cb[i]? = some tr2 →
              optLt tr.response_time tr2.response_time = false))) := by
  intro l
  induction l with
  | nil =>
    intro v _
    exact ⟨v, rfl, Or.inl ⟨rfl, by simp⟩⟩
  | cons comb0 restl ih =>
    intro v hb
    have h0 : i < comb0.length := hb comb0 (by simp)
    have htr0 : comb0[i]? = some comb0[i] := List.getElem?_eq_getElem h0
    have hbrest : ∀ comb ∈ restl, i < comb.length := fun comb hc => hb comb (by simp [hc])
    by_cases hlt : optLt v.response_time comb0[i].response_time = true
    · have hstep : slotScan i (comb0 :: restl) (some v) =
          slotScan i restl (some comb0[i]) := by
        rw [slotScan, htr0]
        simp [worstStep, hlt, cheap_clone_eq]
      obtain ⟨w, hw, hcase⟩ := ih comb0[i] hbrest
      refine ⟨w, by rw [hstep, hw], Or.inr ?_⟩
      rcases hcase with ⟨rfl, hall⟩ | ⟨p, cw, q, trw, rfl, hcw, rfl, hlt2, hp, hq⟩
      · exact ⟨[], comb0, restl, comb0[i], rfl, htr0, rfl, hlt, by simp, hall⟩
      · refine ⟨comb0 :: p, cw, q, w, rfl, hcw, rfl, optLt_trans hlt hlt2, ?_, hq⟩
        intro cb hc tr2 htr2
        rcases List.mem_cons.1 hc with rfl | hcp
        · rw [htr0] at htr2
          cases htr2
          exact hlt2
        · exact hp cb hcp tr2 htr2
    · have hstep : slotScan i (comb0 :: restl) (some v) = slotScan i restl (some v) := by
        rw [slotScan, htr0]
        simp [worstStep, hlt]
      obtain ⟨w, hw, hcase⟩ := ih v hbrest
      refine ⟨w, by rw [hstep, hw], ?_⟩
      rcases hcase with ⟨rfl, hall⟩ | ⟨p, cw, q, trw, rfl, hcw, rfl, hlt2, hp, hq⟩
      · refine Or.inl ⟨rfl, ?_⟩
        intro comb hc tr htr
        rcases List.mem_cons.1 hc with rfl | hcr
        · rw [htr0] at htr
          cases htr
          simpa using hlt
        · exact hall comb hcr tr htr
      · refine Or.inr ⟨comb0 :: p, cw, q, w, rfl, hcw, rfl, hlt2, ?_, hq⟩
        intro cb hc tr2 htr2
        rcases List.mem_cons.1 hc with rfl | hcp
        · rw [htr0] at htr2
          cases htr2
          exact optLt_of_nlt_of_lt (by simpa using hlt) hlt2
        · exact hp cb hcp tr2 htr2

theorem slotTotal_spec (l : List (List TaskResult)) (i : Nat)
    (hne : l ≠ []) (hb : ∀ comb ∈ l, i < comb.length) :
    ∃ w p comb q tr, slotTotal l i = some w ∧ l = p ++ comb :: q ∧
      comb[i]? = some tr ∧ w = tr ∧
      (∀ cb ∈ p, ∀ tr2, cb[i]? = some tr2 → optLt tr2.response_time tr.response_time = true) ∧
      (∀ cb ∈ q, ∀ tr2, cb[i]? = some tr2 → optLt tr.response_time tr2.response_time = false) := by
  match l, hne with
  | comb0 :: restl, _ =>
    have h0 : i < comb0.length := hb comb0 (by simp)
    have htr0 : comb0[i]? = some comb0[i] := List.getElem?_eq_getElem h0
    have hbrest : ∀ comb ∈ restl, i < comb.length := fun comb hc => hb comb (by simp [hc])
    have hstep : slotScan i (comb0 :: restl) none = slotScan i restl (some comb0[i]) := by
      rw [slotScan, htr0]
      simp [worstStep, cheap_clone_eq]
    obtain ⟨w, hw, hcase⟩ := slotScan_spec i restl comb0[i] hbrest
    have hst : slotTotal (comb0 :: restl) i = some w := by
      rw [slotTotal, hstep, hw]
    rcases hcase with ⟨rfl, hall⟩ | ⟨p, cw, q, trw, rfl, hcw, rfl, hlt2, hp, hq⟩
    · exact ⟨comb0[i], [], comb0, restl, comb0[i], hst, rfl, htr0, rfl, by simp, hall⟩
    · refine ⟨w, comb0 :: p, cw, q, w, hst, rfl, hcw, rfl, ?_, hq⟩
      intro cb hc tr2 htr2
      rcases List.mem_cons.1 hc with rfl | hcp
      · rw [htr0] at htr2
        cases htr2
        exact hlt2
      · exact hp cb hcp tr2 htr2

theorem slot_worst_all (l : List (List TaskResult)) (i : Nat)
    (hne : l ≠ []) (hb : ∀ comb ∈ l, i < comb.length) :
    ∃ w, slotTotal l i = some w ∧
      (∀ cb ∈ l, ∀ tr2, cb[i]? = some tr2 → optLt w.response_time tr2.response_time = false) ∧
      (∃ cb ∈ l, ∃ tr, cb[i]? = some tr ∧ w.response_time = tr.response_time) ∧
      (∃ p comb q tr, l = p ++ comb :: q ∧ comb[i]? = some tr ∧ w = tr ∧
        ∀ cb ∈ p, ∀ tr2, cb[i]? = some tr2 →
          optLt tr2.response_time tr.response_time = true) := by
  obtain ⟨w, p, comb, q, tr, hw, hsplit, hcomb, hweq, hp, hq⟩ := slotTotal_spec l i hne hb
  subst hweq
  refine ⟨w, hw, ?_, ⟨comb, by simp [hsplit], w, hcomb, rfl⟩, p, comb, q, w, hsplit, hcomb,
    rfl, hp⟩
  intro cb hc tr2 htr2
  rw [hsplit] at hc
  rcases List.mem_append.1 hc with hcp | hcq
  · exact optLt_asymm (hp cb hcp tr2 htr2)
  · rcases List.mem_cons.1 hcq with rfl | hcq2
    · rw [hcomb] at htr2
      cases htr2
      exact optLt_irrefl _
    · exact hq cb hcq2 tr2 htr2

theorem slotScan_short (i : Nat) :
    ∀ (l : List (List TaskResult)) (cur : Option TaskResult) (comb : List TaskResult),
      comb ∈ l → comb.length ≤ i → slotScan i l cur = none := by
  intro l
  induction l with
  | nil =>
    intro cur comb hc
    simp at hc
  | cons c0 restl ih =>
    intro cur comb hc hlen
    rcases List.mem_cons.1 hc with rfl | hcr
    · rw [slotScan, List.getElem?_eq_none hlen]
    · rw [slotScan]
      cases h0 : c0[i]? with
      | none => rfl
      | some tr => exact ih _ comb hcr hlen

theorem collectSlots_forall (results : List (List TaskResult)) :
    ∀ is : List Nat, (∀ i ∈ is, ∃ w, slotTotal results i = some w) →
      ∃ ws, collectSlots results is = some ws ∧
        List.Forall₂ (fun i w => slotTotal results i = some w) is ws := by
  intro is
  induction is with
  | nil => exact fun _ => ⟨[], rfl, List.Forall₂.nil⟩
  | cons i0 is2 ih =>
    intro h
    obtain ⟨w0, hw0⟩ := h i0 (by simp)
    obtain ⟨ws, hws, hf⟩ := ih (fun i hi => h i (by simp [hi]))
    refine ⟨w0 :: ws, ?_, List.Forall₂.cons hw0 hf⟩
    rw [collectSlots, hw0, hws]

theorem collectSlots_none (results : List (List TaskResult)) :
    ∀ is : List Nat, ∀ i ∈ is, slotTotal results i = none → collectSlots results is = none := by
  intro is
  induction is with
  | nil =>
    intro i hi
    simp at hi
  | cons i0 is2 ih =>
    intro i hi hnone
    rcases List.mem_cons.1 hi with rfl | hmem
    · rw [collectSlots, hnone]
    · simp only [collectSlots, ih i hmem hnone]
      cases slotTotal results i0 <;> rfl

theorem forall2_getElem {α β : Type} {R : α → β → Prop} :
    ∀ {l1 : List α} {l2 : List β}, List.Forall₂ R l1 l2 →
      ∀ (k : Nat) (y : β), l2[k]? = some y → ∃ x, l1[k]? = some x ∧ R x y := by
  intro l1 l2 h
  induction h with
  | nil =>
    intro k y hy
    simp at hy
  | cons hr htl ih =>
    intro k y hy
    cases k with
    | zero =>
      simp only [List.getElem?_cons_zero, Option.some.injEq] at hy
      subst hy
      exact ⟨_, List.getElem?_cons_zero, hr⟩
    | succ k2 =>
      simp only [List.getElem?_cons_succ] at hy ⊢
      exact ih k2 y hy

/-- C4: on a non-empty list of equally-shaped per-combination result lists,
`find_worst` succeeds and returns one result per task slot; at every slot the
selected result's response time is not exceeded by any combination's response
time there, it equals the response time of some combination at that slot
(hence the maximum of that finite set), and the selected result is the
first-seen one among ties — every combination strictly before the selected
one at that slot has a strictly smaller response time.  Selection is a pure
function of the input list, hence deterministic given the input order. -/
theorem find_worst_max (r0 : List TaskResult) (rest : List (List TaskResult))
    (hlen : ∀ comb ∈ r0 :: rest, comb.length = r0.length) :
    ∃ ws, find_worst (r0 :: rest) = some ws ∧ ws.length = r0.length ∧
      ∀ (k : Nat) (w : TaskResult), ws[k]? = some w →
        (∀ comb ∈ r0 :: rest, ∀ tr : TaskResult, comb[k]? = some tr →
          optLt w.response_time tr.response_time = false) ∧
        (∃ comb ∈ r0 :: rest, ∃ tr : TaskResult, comb[k]? = some tr ∧
          w.response_time = tr.response_time) ∧
        (∃ (p : List (List TaskResult)) (comb : List TaskResult) (q : List (List TaskResult))
            (tr : TaskResult), r0 :: rest = p ++ comb :: q ∧ comb[k]? = some tr ∧
          w = tr ∧ ∀ cb ∈ p, ∀ tr2 : TaskResult, cb[k]? = some tr2 →
            optLt tr2.response_time tr.response_time = true) := by
  have hbound : ∀ j, j < r0.length → ∀ comb ∈ r0 :: rest, j < comb.length := by
    intro j hj comb hc
    rw [hlen comb hc]
    exact hj
  have hb : ∀ j ∈ List.range r0.length, ∃ w, slotTotal (r0 :: rest) j = some w := by
    intro j hj
    rw [List.mem_range] at hj
    obtain ⟨w, hw, _⟩ := slot_worst_all (r0 :: rest) j (by simp) (hbound j hj)
    exact ⟨w, hw⟩
  obtain ⟨ws, hws, hf⟩ := collectSlots_forall (r0 :: rest) (List.range r0.length) hb
  refine ⟨ws, ?_, ?_, ?_⟩
  · rw [find_worst]
    exact hws
  · have := hf.length_eq
    simpa using this.symm
  · intro k w hw
    obtain ⟨j, hjk, hslot⟩ := forall2_getElem hf k w hw
    have hkr : k < r0.length := by
      by_contra hnk
      rw [List.getElem?_eq_none (by
        have := hf.length_eq
        simp at this
        omega)] at hw
      exact Option.noConfusion hw
    have hjk2 : j = k := by
      rw [List.getElem?_range hkr] at hjk
      exact (Option.some.inj hjk).symm
    subst hjk2
    obtain ⟨w2, hw2, hub, hmem2, hfirst⟩ :=
      slot_worst_all (r0 :: rest) j (by simp) (hbound j hkr)
    rw [hslot] at hw2
    cases hw2
    exact ⟨hub, hmem2, hfirst⟩

theorem find_worst_max_witness :
    ∃ ws, find_worst [[resFive], [resNine]] = some ws ∧ ws.length = [resFive].length ∧
      ∀ (k : Nat) (w : TaskResult), ws[k]? = some w →
        (∀ comb ∈ [[resFive], [resNine]], ∀ tr : TaskResult, comb[k]? = some tr →
          optLt w.response_time tr.response_time = false) ∧
        (∃ comb ∈ [[resFive], [resNine]], ∃ tr : TaskResult, comb[k]? = some tr ∧
          w.response_time = tr.response_time) ∧
        (∃ (p : List (List TaskResult)) (comb : List TaskResult) (q : List (List TaskResult))
            (tr : TaskResult), [[resFive], [resNine]] = p ++ comb :: q ∧
          comb[k]? = some tr ∧ w = tr ∧ ∀ cb ∈ p, ∀ tr2 : TaskResult, cb[k]? = some tr2 →
            optLt tr2.response_time tr.response_time = true) :=
  find_worst_max [resFive] [[resNine]] (by
    intro comb hc
    rcases List.mem_cons.1 hc with rfl | hc2
    · rfl
    · rcases List.mem_cons.1 hc2 with rfl | hc3
      · rfl
      · simp at hc3)

/-- C5 (amended): `find_worst` compares response times with Rust's derived
`Option` ordering, in which an absent response time is below every present
one; an unresolved result is therefore silently discarded, never reported —
whenever any combination carries a present response time at a slot, the
selected worst at that slot has a present response time, and no error or
marker records that an unresolved result was ever seen. -/
theorem find_worst_none_sentinel (r0 : List TaskResult) (rest : List (List TaskResult))
    (hlen : ∀ comb ∈ r0 :: rest, comb.length = r0.length) :
    ∃ ws, find_worst (r0 :: rest) = some ws ∧
      ∀ (k : Nat) (w : TaskResult), ws[k]? = some w →
        ∀ comb ∈ r0 :: rest, ∀ tr : TaskResult, comb[k]? = some tr →
          tr.response_time.isSome = true → w.response_time.isSome = true := by
  have hbound : ∀ j, j < r0.length → ∀ comb ∈ r0 :: rest, j < comb.length := by
    intro j hj comb hc
    rw [hlen comb hc]
    exact hj
  have hb : ∀ j ∈ List.range r0.length, ∃ w, slotTotal (r0 :: rest) j = some w := by
    intro j hj
    rw [List.mem_range] at hj
    obtain ⟨w, hw, _⟩ := slot_worst_all (r0 :: rest) j (by simp) (hbound j hj)
    exact ⟨w, hw⟩
  obtain ⟨ws, hws, hf⟩ := collectSlots_forall (r0 :: rest) (List.range r0.length) hb
  refine ⟨ws, by rw [find_worst]; exact hws, ?_⟩
  intro k w hw comb hc tr htr hsome
  obtain ⟨j, hjk, hslot⟩ := forall2_getElem hf k w hw
  have hkr : k < r0.length := by
    by_contra hnk
    rw [List.getElem?_eq_none (by
      have := hf.length_eq
      simp at this
      omega)] at hw
    exact Option.noConfusion hw
  have hjk2 : j = k := by
    rw [List.getElem?_range hkr] at hjk
    exact (Option.some.inj hjk).symm
  subst hjk2
  obtain ⟨w2, hw2, hub, _, _⟩ := slot_worst_all (r0 :: rest) j (by simp) (hbound j hkr)
  rw [hslot] at hw2
  cases hw2
  have hno := hub comb hc tr htr
  obtain ⟨x, hx⟩ := Option.isSome_iff_exists.1 hsome
  cases hwrt : w.response_time with
  | some y => rfl
  | none =>
    rw [hwrt, hx] at hno
    simp [optLt] at hno

theorem find_worst_none_sentinel_witness :
    ∃ ws, find_worst [[resNone], [resNine]] = some ws ∧
      ∀ (k : Nat) (w : TaskResult), ws[k]? = some w →
        ∀ comb ∈ [[resNone], [resNine]], ∀ tr : TaskResult, comb[k]? = some tr →
          tr.response_time.isSome = true → w.response_time.isSome = true :=
  find_worst_none_sentinel [resNone] [[resNine]] (by
    intro comb hc
    rcases List.mem_cons.1 hc with rfl | hc2
    · rfl
    · rcases List.mem_cons.1 hc2 with rfl | hc3
      · rfl
      · simp at hc3)

/-- C5 (counterexample): with one combination carrying no response time and
another carrying `Some 5` at the same slot, `find_worst` silently returns the
`Some 5` result — the unresolved result is compared as smaller than any
present response time and dropped without any reportable failure; and with
only unresolved results, the unresolved value itself is silently returned as
the "worst" instead of an error. -/
theorem find_worst_none_counterexample :
    find_worst [[resNone], [resFive]] = some [resFive] ∧
    find_worst [[resNone]] = some [resNone] := by
  constructor <;> rfl

/-- C8 (amended): `find_worst` never checks combination shapes: it reduces
positionally over the first combination's slot count.  When every combination
is at least as long as the first, mismatched extra results are silently
ignored and a report with the first combination's length is produced; a
combination shorter than the first causes an index-out-of-bounds panic
(modelled `none`).  No `InconsistentCombinationShape` error exists. -/
theorem find_worst_shape_tolerant (r0 : List TaskResult) (rest : List (List TaskResult)) :
    ((∀ comb ∈ r0 :: rest, r0.length ≤ comb.length) →
      ∃ ws, find_worst (r0 :: rest) = some ws ∧ ws.length = r0.length) ∧
    (∀ comb ∈ r0 :: rest, comb.length < r0.length → find_worst (r0 :: rest) = none) := by
  constructor
  · intro hle
    have hb : ∀ j ∈ List.range r0.length, ∃ w, slotTotal (r0 :: rest) j = some w := by
      intro j hj
      rw [List.mem_range] at hj
      obtain ⟨w, hw, _⟩ := slot_worst_all (r0 :: rest) j (by simp)
        (fun comb hc => lt_of_lt_of_le hj (hle comb hc))
      exact ⟨w, hw⟩
    obtain ⟨ws, hws, hf⟩ := collectSlots_forall (r0 :: rest) (List.range r0.length) hb
    refine ⟨ws, by rw [find_worst]; exact hws, ?_⟩
    have := hf.length_eq
    simpa using this.symm
  · intro comb hc hlt
    have hscan : slotScan comb.length (r0 :: rest) none = none :=
      slotScan_short comb.length (r0 :: rest) none comb hc (le_refl _)
    have hnone : slotTotal (r0 :: rest) comb.length = none := by
      rw [slotTotal, hscan]
    rw [find_worst]
    exact collectSlots_none (r0 :: rest) (List.range r0.length) comb.length
      (List.mem_range.2 hlt) hnone

theorem find_worst_shape_tolerant_witness :
    ∃ ws, find_worst [[resNine], [resFive, resNone]] = some ws ∧
      ws.length = [resNine].length :=
  (find_worst_shape_tolerant [resNine] [[resFive, resNone]]).1 (by
    intro comb hc
    rcases List.mem_cons.1 hc with rfl | hc2
    · simp
    · rcases List.mem_cons.1 hc2 with rfl | hc3
      · simp
      · simp at hc3)

/-- C8 (counterexample): `find_worst` accepts mismatched combination shapes
without any rejection: with a first combination of one slot and a second of
two, it silently ignores the second combination's extra result and returns a
one-slot report; with a first combination of two slots and a second of one it
panics with an out-of-bounds index (modelled `none`) rather than reporting an
`InconsistentCombinationShape` error. -/
theorem find_worst_shape_counterexample :
    find_worst [[resFive], [resNine, resNone]] = some [resNine] ∧
    find_worst [[resFive, resNine], [resNone]] = none := by
  constructor <;> rfl

theorem foldl_max_le (l : List ℚ) :
    ∀ a : ℚ, a ≤ l.foldl max a ∧ ∀ x ∈ l, x ≤ l.foldl max a := by
  induction l with
  | nil =>
    intro a
    exact ⟨le_refl a, by simp⟩
  | cons x xs ih =>
    intro a
    obtain ⟨h1, h2⟩ := ih (max a x)
    refine ⟨le_trans (le_max_left a x) h1, ?_⟩
    intro y hy
    rcases List.mem_cons.1 hy with rfl | hmem
    · exact le_trans (le_max_right a y) h1
    · exact h2 y hmem

theorem foldl_max_mem (l : List ℚ) : ∀ a : ℚ, l.foldl max a ∈ a :: l := by
  induction l with
  | nil =>
    intro a
    simp
  | cons x xs ih =>
    intro a
    have := ih (max a x)
    rcases List.mem_cons.1 this with heq | hmem
    · rcases max_choice a x with hc | hc
      · simp only [List.foldl_cons]
        rw [heq, hc]
        simp
      · simp only [List.foldl_cons]
        rw [heq, hc]
        simp
    · simp only [List.foldl_cons]
      rcases List.mem_cons.1 (List.mem_cons_self _ _ : x ∈ x :: xs) with _ | _ <;>
        exact List.mem_cons.2 (Or.inr (List.mem_cons.2 (Or.inr hmem)))

theorem total_utilization_nonneg (ts : List Task) : 0 ≤ total_utilization ts := by
  apply List.sum_nonneg
  intro x hx
  rw [List.mem_map] at hx
  obtain ⟨t, _, rfl⟩ := hx
  exact div_nonneg (Nat.cast_nonneg _) (Nat.cast_nonneg _)

/-- C6 (spec-modelled): the maximum utilization accumulated by the main loop
(`max_utilization.max(tasks.total_utilization())` starting from `0.0`) is an
upper bound of every enumerated combination's total utilization and is
attained by some combination — it equals the maximum, over all combinations,
of the sum over the combination's tasks of execution-time estimate divided by
inter-arrival, the external evaluator's utilization being modelled from the
spec. -/
theorem max_utilization_correct (combos : List (List Task)) (hne : combos ≠ []) :
    (∀ cb ∈ combos, total_utilization cb ≤ max_utilization combos) ∧
    ∃ cb ∈ combos, max_utilization combos = total_utilization cb := by
  have hfold : max_utilization combos = (combos.map total_utilization).foldl max 0 := by
    rw [max_utilization, List.foldl_map]
  constructor
  · intro cb hcb
    rw [hfold]
    exact (foldl_max_le (combos.map total_utilization) 0).2 (total_utilization cb)
      (List.mem_map.2 ⟨cb, hcb, rfl⟩)
  · have hmem := foldl_max_mem (combos.map total_utilization) 0
    rcases List.mem_cons.1 hmem with heq | hmem2
    · match combos, hne with
      | cb0 :: combos2, _ =>
        refine ⟨cb0, by simp, le_antisymm ?_ ?_⟩
        · rw [hfold, heq]
          exact total_utilization_nonneg cb0
        · rw [hfold]
          exact (foldl_max_le ((cb0 :: combos2).map total_utilization) 0).2
            (total_utilization cb0) (List.mem_map.2 ⟨cb0, by simp, rfl⟩)
    · rw [List.mem_map] at hmem2
      obtain ⟨cb, hcb, hval⟩ := hmem2
      exact ⟨cb, hcb, by rw [hfold, hval]⟩

theorem max_utilization_correct_witness :
    (∀ cb ∈ [[taskA], [taskB]], total_utilization cb ≤ max_utilization [[taskA], [taskB]]) ∧
    ∃ cb ∈ [[taskA], [taskB]], max_utilization [[taskA], [taskB]] = total_utilization cb :=
  max_utilization_correct [[taskA], [taskB]] (by simp)

end PoC
